import Mathlib

/-!
Verification of the string-keyed vector cache of `src/decanlp/text/vocab.py`:
the deterministic string hash `string_hash`, the open-addressing index
`HashTable` (`_build`, `_find`, `__len__`, `__eq__`), the vector lookup
`Vectors.__getitem__`, the character-n-gram lookup `CharNGram.__getitem__`,
and the line-classification loop of `Vectors.cache`.

Python strings are modelled as Lean `String` (a sequence of Unicode code
points; `ord` is `Char.toNat`).  The numpy `int64` bucket array is modelled
as `List Nat` (stored values are `0` or `1 + i`, always nonnegative and far
below `2^63`).

The probe arithmetic wraps modulo `2^32`: `string_hash` returns `np.uint32`,
and numpy scalar arithmetic between a `uint32` and a nonnegative Python
`int` that fits in 32 bits is performed in `uint32` and wraps on overflow
(both under legacy value-based casting and under NEP 50).  So `hash += 7`
in `_build` and `hash + 7 * probe_count` in `_find` are computed modulo
`2^32`.  (For `7 * probe_count` to fit in 32 bits the bucket count must be
below `2^32 / 7`; beyond that numpy versions disagree — legacy promotes to
`int64`, NEP 50 raises — and the model keeps the wrapped reading.)

The unbounded `while` loop of `HashTable._build` is modelled with explicit
fuel `2^32`; that fuel is exact, because the wrapped probe sequence
`((hash + 7*k) mod 2^32) % capacity` is periodic in `k` with period
dividing `2^32`, so a probe that finds no empty bucket within `2^32`
attempts never finds one (proved below as `findFreeBucket_none_all_fuel`).
-/

namespace Vocab

/-- The source masks the accumulator with the literal `0xFFFFFFFF`. -/
def UINT32_MASK : Nat := 0xFFFFFFFF

/-- The modulus of `np.uint32` arithmetic. -/
def UINT32_SIZE : Nat := 2 ^ 32

/-- Loop body of `string_hash` (vocab.py lines 204-217): for each character
`c`, `h = (h << 10) + h + ord(c) * 1009` followed by `h = h & 0xFFFFFFFF`. -/
def stringHashAux (h : Nat) : List Char → Nat
  | [] => h
  | c :: cs => stringHashAux (((h <<< 10) + h + c.toNat * 1009) &&& UINT32_MASK) cs

/-- `string_hash(x)`: accumulator starts at 0 and folds over the characters
of `x` in order.  The final `np.uint32` cast is the identity on the already
masked accumulator. -/
def stringHash (x : String) : Nat := stringHashAux 0 x.data

/-- The open-addressing index `HashTable`: `itos` is the key table (the
numpy fixed-width string array; the width is the maximum key length, so no
key is truncated and the stored keys equal the input keys), `table` is the
bucket array. -/
structure HashTable where
  itos : List String
  table : List Nat
deriving DecidableEq

/-- `HashTable.EMPTY_BUCKET = 0`. -/
def EMPTY_BUCKET : Nat := 0

/-- The `while self.table[bucket] != self.EMPTY_BUCKET` loop of
`HashTable._build` (vocab.py lines 247-249): starting from `hash`, advance
by 7 — in `np.uint32` arithmetic, wrapping modulo `2^32` — until the bucket
`hash % table_size` is empty, and return that bucket.  The Python loop is
unbounded; `fuel` makes it a total function, and fuel `2^32` is an exact
model of the unbounded loop (more fuel never changes a `none` answer, see
`findFreeBucket_none_all_fuel`). -/
def findFreeBucket (table : List Nat) : Nat → Nat → Option Nat
  | _, 0 => none
  | hash, fuel + 1 =>
    let bucket := hash % table.length
    if table.getD bucket 0 = EMPTY_BUCKET then some bucket
    else findFreeBucket table ((hash + 7) % UINT32_SIZE) fuel

/-- The `for i, word in enumerate(itos)` loop of `HashTable._build`
(vocab.py lines 242-252): insert each key in order; `self.itos[i] = word`
rewrites the key table entry with the value it already holds and is dropped.
`none` models divergence of the inner `while` loop. -/
def buildAux : List String → Nat → List Nat → Option (List Nat)
  | [], _, t => some t
  | word :: rest, i, t =>
    match findFreeBucket t (stringHash word) UINT32_SIZE with
    | none => none
    | some bucket => buildAux rest (i + 1) (t.set bucket (1 + i))

/-- The expression `max(len(x) for x in itos)` of `HashTable.__init__`
(vocab.py line 234): Python `max` raises `ValueError` on an empty sequence,
modelled as `none`. -/
def maxStrLen : List String → Option Nat
  | [] => none
  | x :: xs => some (xs.foldl (fun m s => max m s.length) x.length)

/-- `HashTable.__init__` on the build path (`table is None`, vocab.py lines
232-240): compute the maximum key length (fails on an empty key list), set
`table_size = 2 * len(itos)`, zero the bucket array, and run `_build`.
`none` models a raised exception or a diverging build loop. -/
def HashTable.build (itos : List String) : Option HashTable :=
  match maxStrLen itos with
  | none => none
  | some _ =>
    (buildAux itos 0 (List.replicate (2 * itos.length) 0)).map
      (fun t => { itos := itos, table := t })

/-- The `for probe_count in range(self.table_size)` loop of
`HashTable._find` (vocab.py lines 267-278): probe bucket
`(hash + 7 * probe_count) % table_size`, with the sum computed in
`np.uint32` arithmetic (wrapping modulo `2^32`); an empty bucket means
absence; a bucket holding `key_index` with `itos[key_index - 1] == key`
yields `key_index - 1`; otherwise continue.  `k` is the current
`probe_count` and `fuel` the number of remaining iterations (initially
`table_size`). -/
def findLoop (itos : List String) (table : List Nat) (hash : Nat) (key : String) :
    Nat → Nat → Option Nat
  | _, 0 => none
  | k, fuel + 1 =>
    let bucket := ((hash + 7 * k) % UINT32_SIZE) % table.length
    let keyIndex := table.getD bucket 0
    if keyIndex = EMPTY_BUCKET then none
    else if itos.getD (keyIndex - 1) "" = key then some (keyIndex - 1)
    else findLoop itos table hash key (k + 1) fuel

/-- `HashTable._find` (vocab.py lines 267-278). -/
def HashTable.find (ht : HashTable) (key : String) : Option Nat :=
  findLoop ht.itos ht.table (stringHash key) key 0 ht.table.length

/-- `HashTable.__contains__` (vocab.py lines 287-289). -/
def HashTable.contains (ht : HashTable) (key : String) : Bool :=
  (ht.find key).isSome

/-- `HashTable.__len__` (vocab.py lines 259-260) literally reads
`return self.itos`: it returns the key-string array itself, not its
length. -/
def HashTable.pyLen (ht : HashTable) : List String := ht.itos

/-- `HashTable.__eq__` (vocab.py lines 262-263) returns
`isinstance(other, HashTable) and self.itos == other.itos`.  With `other` a
`HashTable`, `self.itos == other.itos` is the numpy elementwise comparison:
an array of booleans when the shapes agree (`Sum.inr`), and the scalar
`False` when they disagree (`Sum.inl false`). -/
def hashTableEqPy (a b : HashTable) : Sum Bool (List Bool) :=
  if a.itos.length = b.itos.length then
    Sum.inr (List.zipWith (fun x y => x == y) a.itos b.itos)
  else Sum.inl false

/-- The step function named in the specification of `string_hash`:
`h = (h * 1025 + c * 1009) mod 2^32`. -/
def specHashStep (h : Nat) (c : Char) : Nat :=
  (h * 1025 + c.toNat * 1009) % 2 ^ 32

lemma mask_eq_mod (n : Nat) : n &&& UINT32_MASK = n % 2 ^ 32 := by
  have h : UINT32_MASK = 2 ^ 32 - 1 := by norm_num [UINT32_MASK]
  rw [h]
  exact Nat.and_pow_two_sub_one_eq_mod n 32

lemma stringHashAux_eq_foldl (l : List Char) :
    ∀ h : Nat, stringHashAux h l = l.foldl specHashStep h := by
  induction l with
  | nil => intro h; rfl
  | cons c cs ih =>
    intro h
    have hstep : ((h <<< 10) + h + c.toNat * 1009) &&& UINT32_MASK = specHashStep h c := by
      rw [mask_eq_mod, Nat.shiftLeft_eq]
      unfold specHashStep
      ring_nf
    simp only [stringHashAux, List.foldl_cons, hstep]
    exact ih _

lemma stringHashAux_lt (l : List Char) :
    ∀ h : Nat, h < 2 ^ 32 → stringHashAux h l < 2 ^ 32 := by
  induction l with
  | nil => intro h hh; exact hh
  | cons c cs ih =>
    intro h _
    refine ih _ ?_
    rw [mask_eq_mod]
    exact Nat.mod_lt _ (by norm_num)

lemma stringHash_lt (x : String) : stringHash x < UINT32_SIZE := by
  have h : UINT32_SIZE = 2 ^ 32 := rfl
  rw [h]
  exact stringHashAux_lt x.data 0 (by norm_num)

/-- C3: for every string `x`, `string_hash(x)` equals the left fold, over
the characters of `x` in order, of `h = (h * 1025 + ord(c) * 1009) mod 2^32`
starting from 0; the hash of the empty string is 0; and the result is
always strictly below `2^32`.  Determinism across invocations is immediate
because `stringHash` is a pure function of `x`. -/
theorem string_hash_spec (x : String) :
    stringHash x = x.data.foldl specHashStep 0
      ∧ stringHash "" = 0
      ∧ stringHash x < 2 ^ 32 := by
  refine ⟨stringHashAux_eq_foldl x.data 0, rfl, ?_⟩
  exact stringHashAux_lt x.data 0 (by norm_num)

lemma buildAux_length :
    ∀ (rest : List String) (i : Nat) (t T : List Nat),
      buildAux rest i t = some T → T.length = t.length := by
  intro rest
  induction rest with
  | nil => intro i t T h; cases h; rfl
  | cons w ws ih =>
    intro i t T h
    unfold buildAux at h
    cases hfb : findFreeBucket t (stringHash w) UINT32_SIZE with
    | none => rw [hfb] at h; cases h
    | some b =>
      rw [hfb] at h
      have := ih (i + 1) (t.set b (1 + i)) T h
      rwa [List.length_set] at this

/-- C10: constructing a `HashTable` from an empty key list fails (the
maximum key length is taken over an empty sequence), and every successfully
built table has at least one key and a strictly positive bucket count. -/
theorem hashTable_build_requires_nonempty :
    HashTable.build [] = none
      ∧ ∀ (itos : List String) (ht : HashTable),
          HashTable.build itos = some ht →
            0 < ht.itos.length ∧ 0 < ht.table.length := by
  refine ⟨rfl, ?_⟩
  intro itos ht h
  cases itos with
  | nil => cases h
  | cons x xs =>
    unfold HashTable.build at h
    simp only [maxStrLen] at h
    rcases Option.map_eq_some'.mp h with ⟨t, hb, hht⟩
    have hlen : t.length = 2 * (x :: xs).length := by
      have := buildAux_length _ _ _ _ hb
      rwa [List.length_replicate] at this
    subst hht
    constructor
    · simp
    · simp only [hlen, List.length_cons]
      omega

/-- C10 witness: the table built from `["cat", "dog"]` has a positive key
count and a positive bucket count. -/
theorem hashTable_build_requires_nonempty_witness :
    0 < ((HashTable.build ["cat", "dog"]).getD ⟨[], []⟩).itos.length
      ∧ 0 < ((HashTable.build ["cat", "dog"]).getD ⟨[], []⟩).table.length :=
  hashTable_build_requires_nonempty.2 ["cat", "dog"]
    ((HashTable.build ["cat", "dog"]).getD ⟨[], []⟩) (by decide)

/-- C8 (code bug): the size operation `HashTable.__len__` returns the key
array itself (`return self.itos`), not an integer: on the table built from
`["cat", "dog"]` it yields the list of key strings, not the number 2. -/
theorem hashTable_pyLen_returns_key_array :
    (HashTable.build ["cat", "dog"]).map HashTable.pyLen = some ["cat", "dog"] := by
  decide

/-- C9 (code bug): `HashTable.__eq__` on two tables with equal key arrays
returns the numpy elementwise comparison array (here `[True, True]` on the
two-key table built from `["cat", "dog"]` compared with itself), not a
single boolean. -/
theorem hashTable_eqPy_returns_elementwise_array :
    hashTableEqPy ((HashTable.build ["cat", "dog"]).getD ⟨[], []⟩)
        ((HashTable.build ["cat", "dog"]).getD ⟨[], []⟩)
      = Sum.inr [true, true] := by
  decide

/-- `MAX_WORD_LENGTH` (vocab.py line 22). -/
def MAX_WORD_LENGTH : Nat := 100

/-- Trailing-whitespace stripping, `line.rstrip()`. -/
def trimRightChars (l : List Char) : List Char :=
  (l.reverse.dropWhile Char.isWhitespace).reverse

/-- Splitting on every single space character, keeping empty fields between
consecutive spaces, as Python `split(" ")` does. -/
def splitOnSpaceAux : List Char → List Char → List String
  | [], acc => [String.mk acc.reverse]
  | c :: cs, acc =>
    if c = ' ' then String.mk acc.reverse :: splitOnSpaceAux cs []
    else splitOnSpaceAux cs (c :: acc)

/-- `line.rstrip().split(" ")` (vocab.py line 381, text mode). -/
def splitLine (line : String) : List String :=
  splitOnSpaceAux (trimRightChars line.data) []

/-- The per-line classification loop of `Vectors.cache` (vocab.py lines
378-409, text mode): `word, entries = entries[0], entries[1:]`; a line with
more than one value while the dimension is unset establishes the dimension
and is stored; a line with exactly one value is skipped as a presumed
header; a line whose value count otherwise disagrees with the dimension
raises `RuntimeError`; a surviving word longer than `MAX_WORD_LENGTH` is
dropped; otherwise the word is appended to `itos`.  The numeric conversion
`float(x)` of the stored vector rows is outside the model; the function
returns the surviving key list, accumulated in reverse. -/
def cacheLines : List String → Option Nat → List String → Except String (List String)
  | [], _, itos => Except.ok itos.reverse
  | line :: rest, dim, itos =>
    let entries := splitLine line
    let word := entries.headD ""
    let vals := entries.tail
    if dim = none ∧ 1 < vals.length then
      if MAX_WORD_LENGTH < word.length then cacheLines rest (some vals.length) itos
      else cacheLines rest (some vals.length) (word :: itos)
    else if vals.length = 1 then cacheLines rest dim itos
    else if dim ≠ some vals.length then
      Except.error ("Vector for token " ++ word ++ " has the wrong number of dimensions")
    else if MAX_WORD_LENGTH < word.length then cacheLines rest dim itos
    else cacheLines rest dim (word :: itos)

/-- C4 counterexample: with the dimension established as 2 by the first
line, the one-value line `"badtoken 5.0"` is skipped as a presumed header
and the build completes, returning the keys `["cat", "dog"]` — it is not a
fatal error. -/
theorem cache_one_value_line_skipped :
    cacheLines ["cat 1.0 2.0", "badtoken 5.0", "dog 3.0 4.0"] none []
      = Except.ok ["cat", "dog"] := rfl

/-- C4 amended: once the dimension has been established, a line whose value
count disagrees with the dimension is fatal only when that count is not
exactly one; a line with exactly one value is always skipped (the
single-value header branch is tested before the dimension-mismatch branch),
regardless of whether the dimension is already established. -/
theorem cache_dimension_mismatch_fatal (line : String) (rest : List String)
    (d : Nat) (dim : Option Nat) (itos : List String) :
    ((splitLine line).tail.length ≠ 1 → (splitLine line).tail.length ≠ d →
        ∃ msg, cacheLines (line :: rest) (some d) itos = Except.error msg)
      ∧ ((splitLine line).tail.length = 1 →
        cacheLines (line :: rest) dim itos = cacheLines rest dim itos) := by
  constructor
  · intro h1 h2
    have hstep : cacheLines (line :: rest) (some d) itos
        = Except.error ("Vector for token " ++ (splitLine line).headD ""
            ++ " has the wrong number of dimensions") := by
      simp only [cacheLines]
      have hfalse : ¬((some d : Option Nat) = none ∧ 1 < (splitLine line).tail.length) := by
        rintro ⟨hc, -⟩; cases hc
      rw [if_neg hfalse, if_neg h1, if_pos]
      intro hc
      exact h2 (Option.some.inj hc).symm
    exact ⟨_, hstep⟩
  · intro h1
    conv_lhs => rw [cacheLines]
    have hfalse : ¬(dim = none ∧ 1 < (splitLine line).tail.length) := by
      rintro ⟨-, hc⟩; omega
    rw [if_neg hfalse, if_pos h1]

/-- C4 amended, witness: a three-value line after dimension 2 is fatal, and
the one-value line `"badtoken 5.0"` is skipped. -/
theorem cache_dimension_mismatch_fatal_witness :
    (∃ msg, cacheLines ["badtoken 5.0 6.0 7.0"] (some 2) [] = Except.error msg)
      ∧ cacheLines ["badtoken 5.0", "dog 3.0 4.0"] (some 2) []
          = cacheLines ["dog 3.0 4.0"] (some 2) [] :=
  ⟨(cache_dimension_mismatch_fatal "badtoken 5.0 6.0 7.0" [] 2 (some 2) []).1
      (by decide) (by decide),
    (cache_dimension_mismatch_fatal "badtoken 5.0" ["dog 3.0 4.0"] 2 (some 2) []).2
      (by decide)⟩

/-- A loaded `Vectors` object (vocab.py lines 299-318): the hash index
`stoi`, the vector matrix, the dimension, and the out-of-vocabulary policy
`unk_init`.  Vector components are modelled as rationals: the lookups the
claims concern only store and return components, never compute with them,
so exact arithmetic is faithful. -/
structure VectorsTable where
  stoi : HashTable
  vectors : List (List ℚ)
  dim : Nat
  unk_init : List ℚ → List ℚ

/-- A freshly allocated `torch.Tensor(1, self.dim)`: its contents are
unspecified memory, modelled as zeros; every policy considered by the
claims overwrites the contents anyway. -/
def torchTensor (dim : Nat) : List ℚ := List.replicate dim 0

/-- The default out-of-vocabulary policy `torch.Tensor.zero_`: overwrite
every component with zero, keeping the shape. -/
def tensorZero (t : List ℚ) : List ℚ := t.map (fun _ => 0)

/-- `Vectors.__getitem__` (vocab.py lines 314-318): if the token is in the
index, return its matrix row; otherwise apply `unk_init` to a fresh tensor
of the table dimension. -/
def VectorsTable.getItem (v : VectorsTable) (token : String) : List ℚ :=
  if v.stoi.contains token then v.vectors.getD ((v.stoi.find token).getD 0) []
  else v.unk_init (torchTensor v.dim)

/-- C6: with the default policy, looking up a token absent from the key
table is not an error and returns the all-zero vector of the table
dimension. -/
theorem vectors_unknown_token_fallback (v : VectorsTable) (token : String)
    (hdef : v.unk_init = tensorZero) (habs : v.stoi.find token = none) :
    v.getItem token = List.replicate v.dim 0
      ∧ (v.getItem token).length = v.dim := by
  have hc : v.stoi.contains token = false := by
    simp [HashTable.contains, habs]
  have h : v.getItem token = List.replicate v.dim 0 := by
    unfold VectorsTable.getItem
    rw [hc, hdef]
    simp [tensorZero, torchTensor, List.map_replicate]
  exact ⟨h, by rw [h, List.length_replicate]⟩

/-- A concrete two-key vector table over the index built from
`["cat", "dog"]`, with the default out-of-vocabulary policy. -/
def exampleVectors : VectorsTable :=
  { stoi := (HashTable.build ["cat", "dog"]).getD ⟨[], []⟩,
    vectors := [[1, 2], [3, 4]], dim := 2, unk_init := tensorZero }

/-- C6 witness: looking up the absent token `"fish"` in the concrete table
returns the zero vector of dimension 2. -/
theorem vectors_unknown_token_fallback_witness :
    VectorsTable.getItem exampleVectors "fish" = List.replicate exampleVectors.dim 0
      ∧ (VectorsTable.getItem exampleVectors "fish").length = exampleVectors.dim :=
  vectors_unknown_token_fallback exampleVectors "fish" rfl (by decide)

lemma getD_set_self (t : List Nat) (b v : Nat) (hb : b < t.length) :
    (t.set b v).getD b 0 = v := by
  rw [List.getD_eq_getElem?_getD, List.getElem?_set_self hb]
  rfl

lemma getD_set_ne (t : List Nat) (b b' v : Nat) (h : b ≠ b') :
    (t.set b v).getD b' 0 = t.getD b' 0 := by
  rw [List.getD_eq_getElem?_getD, List.getElem?_set_ne h, ← List.getD_eq_getElem?_getD]

lemma uint32_size_pos : 0 < UINT32_SIZE := by norm_num [UINT32_SIZE]

/-- Shifting the wrapped probe origin by one step: starting the probe
sequence from `(hash + 7) mod 2^32` and taking `k` steps lands on the same
value as taking `k + 1` steps from `hash`. -/
lemma probe_step_shift (hash k : Nat) :
    ((hash + 7) % UINT32_SIZE + 7 * k) % UINT32_SIZE
      = (hash + 7 * (k + 1)) % UINT32_SIZE := by
  rw [Nat.mod_add_mod]
  have harith : hash + 7 + 7 * k = hash + 7 * (k + 1) := by ring
  rw [harith]

lemma probe_mod_period (hash cap d : Nat) :
    (hash + 7 * d) % cap = (hash + 7 * (d % cap)) % cap := by
  conv_lhs => rw [← Nat.div_add_mod d cap]
  rw [Nat.mul_add]
  have harr : hash + (7 * (cap * (d / cap)) + 7 * (d % cap))
      = hash + 7 * (d % cap) + cap * (7 * (d / cap)) := by ring
  rw [harr, Nat.add_mul_mod_self_left]

lemma findFreeBucket_some_spec :
    ∀ (fuel : Nat) (t : List Nat) (hash b : Nat), hash < UINT32_SIZE →
      findFreeBucket t hash fuel = some b →
      ∃ k < fuel, b = ((hash + 7 * k) % UINT32_SIZE) % t.length
          ∧ t.getD b 0 = 0
          ∧ ∀ k' < k, t.getD (((hash + 7 * k') % UINT32_SIZE) % t.length) 0 ≠ 0 := by
  intro fuel
  induction fuel with
  | zero => intro t hash b _ h; cases h
  | succ f ih =>
    intro t hash b hh h
    unfold findFreeBucket at h
    by_cases hemp : t.getD (hash % t.length) 0 = EMPTY_BUCKET
    · rw [if_pos hemp] at h
      refine ⟨0, Nat.succ_pos f, ?_, ?_, ?_⟩
      · cases h; simp [Nat.mod_eq_of_lt hh]
      · cases h; simpa [EMPTY_BUCKET] using hemp
      · intro k' hk'; omega
    · rw [if_neg hemp] at h
      obtain ⟨k, hk, hb, hempty, hprev⟩ :=
        ih t ((hash + 7) % UINT32_SIZE) b (Nat.mod_lt _ uint32_size_pos) h
      refine ⟨k + 1, by omega, ?_, hempty, ?_⟩
      · rw [hb, probe_step_shift]
      · intro k' hk'
        cases k' with
        | zero =>
          simpa [EMPTY_BUCKET, Nat.mod_eq_of_lt hh] using hemp
        | succ k'' =>
          have := hprev k'' (by omega)
          rwa [probe_step_shift] at this

lemma findFreeBucket_complete :
    ∀ (fuel : Nat) (t : List Nat) (hash : Nat), hash < UINT32_SIZE →
      (∃ k < fuel, t.getD (((hash + 7 * k) % UINT32_SIZE) % t.length) 0 = 0) →
      ∃ b, findFreeBucket t hash fuel = some b := by
  intro fuel
  induction fuel with
  | zero => rintro t hash _ ⟨k, hk, -⟩; omega
  | succ f ih =>
    rintro t hash hh ⟨k, hk, hempty⟩
    unfold findFreeBucket
    by_cases hemp : t.getD (hash % t.length) 0 = EMPTY_BUCKET
    · exact ⟨_, by rw [if_pos hemp]⟩
    · rw [if_neg hemp]
      refine ih t ((hash + 7) % UINT32_SIZE) (Nat.mod_lt _ uint32_size_pos)
        ⟨k - 1, ?_, ?_⟩
      · cases k with
        | zero =>
          rw [Nat.mul_zero, Nat.add_zero, Nat.mod_eq_of_lt hh] at hempty
          exact absurd (by simpa [EMPTY_BUCKET] using hempty) hemp
        | succ k'' => omega
      · cases k with
        | zero =>
          rw [Nat.mul_zero, Nat.add_zero, Nat.mod_eq_of_lt hh] at hempty
          exact absurd (by simpa [EMPTY_BUCKET] using hempty) hemp
        | succ k'' =>
          rw [probe_step_shift]
          simpa using hempty

lemma findFreeBucket_occupied_none :
    ∀ (fuel : Nat) (t : List Nat) (hash : Nat), hash < UINT32_SIZE →
      (∀ k < fuel, t.getD (((hash + 7 * k) % UINT32_SIZE) % t.length) 0 ≠ 0) →
      findFreeBucket t hash fuel = none := by
  intro fuel
  induction fuel with
  | zero => intro t hash _ _; rfl
  | succ f ih =>
    intro t hash hh hall
    unfold findFreeBucket
    have h0 := hall 0 (by omega)
    rw [Nat.mul_zero, Nat.add_zero, Nat.mod_eq_of_lt hh] at h0
    rw [if_neg (by simpa [EMPTY_BUCKET] using h0)]
    refine ih t ((hash + 7) % UINT32_SIZE) (Nat.mod_lt _ uint32_size_pos) ?_
    intro k hk
    rw [probe_step_shift]
    exact hall (k + 1) (by omega)

lemma findFreeBucket_reach :
    ∀ (m : Nat) (t : List Nat) (hash fuel : Nat), hash < UINT32_SIZE → m < fuel →
      (∀ d < m, t.getD (((hash + 7 * d) % UINT32_SIZE) % t.length) 0 ≠ 0) →
      t.getD (((hash + 7 * m) % UINT32_SIZE) % t.length) 0 = 0 →
      findFreeBucket t hash fuel = some (((hash + 7 * m) % UINT32_SIZE) % t.length) := by
  intro m
  induction m with
  | zero =>
    intro t hash fuel hh hf hpath hval
    cases fuel with
    | zero => omega
    | succ f =>
      simp only [Nat.mul_zero, Nat.add_zero, Nat.mod_eq_of_lt hh] at hval ⊢
      unfold findFreeBucket
      rw [if_pos (by simpa [EMPTY_BUCKET] using hval)]
  | succ m' ih =>
    intro t hash fuel hh hf hpath hval
    cases fuel with
    | zero => omega
    | succ f =>
      have h0 := hpath 0 (by omega)
      rw [Nat.mul_zero, Nat.add_zero, Nat.mod_eq_of_lt hh] at h0
      unfold findFreeBucket
      rw [if_neg (by simpa [EMPTY_BUCKET] using h0)]
      rw [← probe_step_shift hash m']
      refine ih t ((hash + 7) % UINT32_SIZE) f (Nat.mod_lt _ uint32_size_pos)
        (by omega) ?_ ?_
      · intro d hd
        rw [probe_step_shift]
        exact hpath (d + 1) (by omega)
      · rw [probe_step_shift]
        exact hval

/-- A probe that finds no empty bucket within `2^32` attempts never finds
one: the wrapped probe value `(hash + 7 * k) mod 2^32` is periodic in `k`
with period dividing `2^32`, so fuel `2^32` is an exact model of the
unbounded `while` loop of `HashTable._build`. -/
lemma findFreeBucket_none_all_fuel (t : List Nat) (hash : Nat)
    (hh : hash < UINT32_SIZE) (h : findFreeBucket t hash UINT32_SIZE = none) :
    ∀ fuel, findFreeBucket t hash fuel = none := by
  intro fuel
  cases hres : findFreeBucket t hash fuel with
  | none => rfl
  | some b =>
    exfalso
    obtain ⟨k, -, hb, hempty, -⟩ := findFreeBucket_some_spec fuel t hash b hh hres
    have hmod : (hash + 7 * k) % UINT32_SIZE
        = (hash + 7 * (k % UINT32_SIZE)) % UINT32_SIZE := probe_mod_period _ _ _
    have hempty' :
        t.getD (((hash + 7 * (k % UINT32_SIZE)) % UINT32_SIZE) % t.length) 0 = 0 := by
      rw [← hmod, ← hb]; exact hempty
    obtain ⟨b', hb'⟩ := findFreeBucket_complete UINT32_SIZE t hash hh
      ⟨k % UINT32_SIZE, Nat.mod_lt _ uint32_size_pos, hempty'⟩
    rw [h] at hb'
    cases hb'

/-- Every non-empty slot of the stage-`i` bucket array holds `j + 1` for
some key ordinal `j < i`. -/
def EntriesInv (i : Nat) (t : List Nat) : Prop :=
  ∀ b, t.getD b 0 = 0 ∨ ∃ j < i, t.getD b 0 = j + 1

/-- Every key ordinal `j < i` occupies exactly one slot of the stage-`i`
bucket array. -/
def UniqInv (i : Nat) (t : List Nat) : Prop :=
  ∀ j < i, ∃ b < t.length,
    t.getD b 0 = j + 1 ∧ ∀ b', t.getD b' 0 = j + 1 → b' = b

lemma buildAux_spec :
    ∀ (rest : List String) (i : Nat) (t T : List Nat),
      buildAux rest i t = some T →
      0 < t.length →
      EntriesInv i t →
      UniqInv i t →
      T.length = t.length
      ∧ EntriesInv (i + rest.length) T
      ∧ UniqInv (i + rest.length) T
      ∧ (∀ b, t.getD b 0 ≠ 0 → T.getD b 0 = t.getD b 0)
      ∧ (∀ r < rest.length,
          ∃ m < UINT32_SIZE,
            T.getD (((stringHash (rest.getD r "") + 7 * m) % UINT32_SIZE) % t.length) 0
              = i + r + 1
            ∧ ∀ k < m, ∃ jp < i + r,
                T.getD (((stringHash (rest.getD r "") + 7 * k) % UINT32_SIZE) % t.length) 0
                  = jp + 1) := by
  intro rest
  induction rest with
  | nil =>
    intro i t T h hcap hent huniq
    cases h
    refine ⟨rfl, by simpa using hent, by simpa using huniq, fun _ _ => rfl, ?_⟩
    intro r hr
    simp at hr
  | cons w ws ih =>
    intro i t T h hcap hent huniq
    unfold buildAux at h
    cases hfb : findFreeBucket t (stringHash w) UINT32_SIZE with
    | none => rw [hfb] at h; cases h
    | some b =>
      rw [hfb] at h
      obtain ⟨k0, hk0, hbeq, hbempty, hprev⟩ :=
        findFreeBucket_some_spec _ _ _ _ (stringHash_lt w) hfb
      have hblt : b < t.length := hbeq ▸ Nat.mod_lt _ hcap
      have hlen' : (t.set b (1 + i)).length = t.length := List.length_set t b _
      have hself : (t.set b (1 + i)).getD b 0 = 1 + i := getD_set_self t b (1 + i) hblt
      have hother : ∀ b', b' ≠ b → (t.set b (1 + i)).getD b' 0 = t.getD b' 0 :=
        fun b' hb' => getD_set_ne t b b' (1 + i) (Ne.symm hb')
      have hent' : EntriesInv (i + 1) (t.set b (1 + i)) := by
        intro b'
        by_cases hc : b' = b
        · subst hc; right; exact ⟨i, by omega, hself.trans (by omega)⟩
        · rcases hent b' with h0 | ⟨j, hj, hjv⟩
          · left; rw [hother b' hc]; exact h0
          · right; exact ⟨j, by omega, by rw [hother b' hc]; exact hjv⟩
      have huniq' : UniqInv (i + 1) (t.set b (1 + i)) := by
        intro j hj
        by_cases hji : j = i
        · subst hji
          refine ⟨b, by rw [hlen']; exact hblt, hself.trans (by omega), ?_⟩
          intro b' hb'
          by_contra hne
          rw [hother b' hne] at hb'
          rcases hent b' with h0 | ⟨j', hj', hj'v⟩
          · rw [h0] at hb'; omega
          · rw [hj'v] at hb'; omega
        · have hji' : j < i := by omega
          obtain ⟨bj, hbjlt, hbjv, hbju⟩ := huniq j hji'
          have hbjne : bj ≠ b := by
            intro hc; rw [hc, hbempty] at hbjv; omega
          refine ⟨bj, by rw [hlen']; exact hbjlt,
            by rw [hother bj hbjne]; exact hbjv, ?_⟩
          intro b' hb'
          have hb'ne : b' ≠ b := by
            intro hc; subst hc
            rw [hself] at hb'; omega
          rw [hother b' hb'ne] at hb'
          exact hbju b' hb'
      obtain ⟨hTlen, hTent, hTuniq, hTmono, hTpath⟩ :=
        ih (i + 1) (t.set b (1 + i)) T h (by rw [hlen']; exact hcap) hent' huniq'
      have hTlen' : T.length = t.length := hTlen.trans hlen'
      refine ⟨hTlen', ?_, ?_, ?_, ?_⟩
      · have harith : i + (w :: ws).length = i + 1 + ws.length := by
          simp [List.length_cons]; omega
        rw [harith]; exact hTent
      · have harith : i + (w :: ws).length = i + 1 + ws.length := by
          simp [List.length_cons]; omega
        rw [harith]; exact hTuniq
      · intro b' hb'
        have hb'ne : b' ≠ b := by
          intro hc; rw [hc, hbempty] at hb'; exact hb' rfl
        have h1 : (t.set b (1 + i)).getD b' 0 ≠ 0 := by
          rw [hother b' hb'ne]; exact hb'
        rw [hTmono b' h1, hother b' hb'ne]
      · intro r hr
        cases r with
        | zero =>
          refine ⟨k0, hk0, ?_, ?_⟩
          · have hkey : (w :: ws).getD 0 "" = w := rfl
            rw [hkey, ← hbeq]
            have hne : (t.set b (1 + i)).getD b 0 ≠ 0 := by rw [hself]; omega
            rw [hTmono b hne, hself]
            omega
          · intro k hk
            have hocc := hprev k hk
            rcases hent (((stringHash w + 7 * k) % UINT32_SIZE) % t.length)
              with h0 | ⟨jp, hjp, hjpv⟩
            · exact absurd h0 hocc
            · refine ⟨jp, by omega, ?_⟩
              have hkey : (w :: ws).getD 0 "" = w := rfl
              rw [hkey]
              have hbne : ((stringHash w + 7 * k) % UINT32_SIZE) % t.length ≠ b := by
                intro hc; rw [hc, hbempty] at hjpv; omega
              have h1 : (t.set b (1 + i)).getD
                    (((stringHash w + 7 * k) % UINT32_SIZE) % t.length) 0
                  = jp + 1 := by rw [hother _ hbne]; exact hjpv
              rw [hTmono _ (by rw [h1]; omega), h1]
        | succ r' =>
          have hr' : r' < ws.length := by
            simp [List.length_cons] at hr; omega
          obtain ⟨m, hm, hval, hpath⟩ := hTpath r' hr'
          have hkey : (w :: ws).getD (r' + 1) "" = ws.getD r' "" := rfl
          refine ⟨m, hm, ?_, ?_⟩
          · rw [hkey]
            have harith : i + (r' + 1) + 1 = i + 1 + r' + 1 := by omega
            rw [harith]
            rw [← hlen']
            exact hval
          · intro k hk
            obtain ⟨jp, hjp, hjpv⟩ := hpath k hk
            refine ⟨jp, by omega, ?_⟩
            rw [hkey, ← hlen']
            exact hjpv

lemma getD_replicate_zero (n b : Nat) : (List.replicate n (0 : Nat)).getD b 0 = 0 := by
  rw [List.getD_eq_getElem?_getD, List.getElem?_replicate]
  split <;> rfl

lemma build_spec (itos : List String) (ht : HashTable)
    (h : HashTable.build itos = some ht) :
    ht.itos = itos
    ∧ ht.table.length = 2 * itos.length
    ∧ EntriesInv itos.length ht.table
    ∧ UniqInv itos.length ht.table
    ∧ ∀ r < itos.length,
        ∃ m < UINT32_SIZE,
          ht.table.getD
              (((stringHash (itos.getD r "") + 7 * m) % UINT32_SIZE) % ht.table.length) 0
            = r + 1
          ∧ ∀ k < m, ∃ jp < r,
              ht.table.getD
                  (((stringHash (itos.getD r "") + 7 * k) % UINT32_SIZE) % ht.table.length) 0
                = jp + 1 := by
  cases itos with
  | nil => cases h
  | cons x xs =>
    unfold HashTable.build at h
    simp only [maxStrLen] at h
    rcases Option.map_eq_some'.mp h with ⟨t, hb, hht⟩
    have hlenr : (List.replicate (2 * (x :: xs).length) (0 : Nat)).length
        = 2 * (x :: xs).length := List.length_replicate _ _
    have hcap : 0 < (List.replicate (2 * (x :: xs).length) (0 : Nat)).length := by
      rw [hlenr]; simp [List.length_cons]
    have hent0 : EntriesInv 0 (List.replicate (2 * (x :: xs).length) 0) := by
      intro b; left; exact getD_replicate_zero _ _
    have huniq0 : UniqInv 0 (List.replicate (2 * (x :: xs).length) 0) := by
      intro j hj; omega
    obtain ⟨hTlen, hTent, hTuniq, -, hTpath⟩ :=
      buildAux_spec (x :: xs) 0 _ t hb hcap hent0 huniq0
    have hTlen2 : t.length = 2 * (x :: xs).length := hTlen.trans hlenr
    subst hht
    refine ⟨rfl, hTlen2, by simpa using hTent, by simpa using hTuniq, ?_⟩
    intro r hr
    obtain ⟨m, hm, hval, hpath⟩ := hTpath r hr
    rw [hlenr] at hval hpath
    rw [← hTlen2] at hval hpath
    refine ⟨m, hm, by simpa using hval, ?_⟩
    intro k hk
    obtain ⟨jp, hjp, hjpv⟩ := hpath k hk
    exact ⟨jp, by simpa using hjp, hjpv⟩

lemma findLoop_sound (itos : List String) (table : List Nat) (hash : Nat) (key : String) :
    ∀ (fuel k j : Nat), findLoop itos table hash key k fuel = some j →
      itos.getD j "" = key ∧ ∃ b, table.getD b 0 = j + 1 := by
  intro fuel
  induction fuel with
  | zero => intro k j h; cases h
  | succ f ih =>
    intro k j h
    unfold findLoop at h
    by_cases h0 :
        table.getD (((hash + 7 * k) % UINT32_SIZE) % table.length) 0 = EMPTY_BUCKET
    · rw [if_pos h0] at h; cases h
    · rw [if_neg h0] at h
      by_cases hm : itos.getD
          (table.getD (((hash + 7 * k) % UINT32_SIZE) % table.length) 0 - 1) "" = key
      · rw [if_pos hm] at h
        have hne : table.getD (((hash + 7 * k) % UINT32_SIZE) % table.length) 0 ≠ 0 := by
          simpa [EMPTY_BUCKET] using h0
        cases h
        exact ⟨hm, ⟨((hash + 7 * k) % UINT32_SIZE) % table.length, by omega⟩⟩
      · rw [if_neg hm] at h
        exact ih (k + 1) j h

lemma findLoop_reach (itos : List String) (table : List Nat) (hash : Nat) (key : String)
    (i : Nat) (hkey : itos.getD i "" = key) :
    ∀ (m k fuel : Nat), m < fuel →
      (∀ d < m, ∃ jp,
          table.getD (((hash + 7 * (k + d)) % UINT32_SIZE) % table.length) 0 = jp + 1
          ∧ itos.getD jp "" ≠ key) →
      table.getD (((hash + 7 * (k + m)) % UINT32_SIZE) % table.length) 0 = i + 1 →
      findLoop itos table hash key k fuel = some i := by
  intro m
  induction m with
  | zero =>
    intro k fuel hf hpath hval
    cases fuel with
    | zero => omega
    | succ f =>
      rw [Nat.add_zero] at hval
      simp only [findLoop]
      rw [hval]
      rw [if_neg (by simp [EMPTY_BUCKET])]
      rw [Nat.add_sub_cancel]
      rw [if_pos hkey]
  | succ m' ih =>
    intro k fuel hf hpath hval
    cases fuel with
    | zero => omega
    | succ f =>
      obtain ⟨jp, hjv, hjne⟩ := hpath 0 (by omega)
      rw [Nat.add_zero] at hjv
      simp only [findLoop]
      rw [hjv]
      rw [if_neg (by simp [EMPTY_BUCKET])]
      rw [Nat.add_sub_cancel]
      rw [if_neg hjne]
      refine ih (k + 1) f (by omega) ?_ ?_
      · intro d hd
        obtain ⟨jq, h1, h2⟩ := hpath (d + 1) (by omega)
        have harith : k + (d + 1) = k + 1 + d := by omega
        rw [harith] at h1
        exact ⟨jq, h1, h2⟩
      · have harith : k + (m' + 1) = k + 1 + m' := by omega
        rw [harith] at hval
        exact hval

/-- C1 amended: on every successfully built table, `_find` returns the
first-occurrence ordinal `i` of key `itos[i]` whenever the slot storing
`i + 1` is reachable within the capacity-bounded probe window (always the
case when the key was inserted within `capacity` attempts); every `some j`
answer is the ordinal of a key equal to the query; and when some probe step
within the window hits an empty slot (the empty-slot stopping case of
`_find`), a `none` answer means the key is truly absent.  Without the
window condition, a key placed beyond `capacity` probe attempts — after a
32-bit wraparound of the probe accumulator — is missed, see the
counterexample. -/
theorem hashTable_find_correct (itos : List String) (ht : HashTable)
    (h : HashTable.build itos = some ht) :
    (∀ i, i < itos.length → (∀ j, j < i → itos.getD j "" ≠ itos.getD i "") →
        (∃ m < ht.table.length,
            ht.table.getD
                (((stringHash (itos.getD i "") + 7 * m) % UINT32_SIZE)
                  % ht.table.length) 0
              = i + 1) →
        ht.find (itos.getD i "") = some i)
    ∧ (∀ key j, ht.find key = some j → j < itos.length ∧ itos.getD j "" = key)
    ∧ ∀ key : String,
        (∃ k < ht.table.length,
            ht.table.getD
              (((stringHash key + 7 * k) % UINT32_SIZE) % ht.table.length) 0 = 0) →
        ht.find key = none → ¬ key ∈ itos := by
  obtain ⟨hitos, hlen, hent, huniq, hpath⟩ := build_spec itos ht h
  have parta : ∀ i, i < itos.length →
      (∀ j, j < i → itos.getD j "" ≠ itos.getD i "") →
      (∃ m < ht.table.length,
          ht.table.getD
              (((stringHash (itos.getD i "") + 7 * m) % UINT32_SIZE)
                % ht.table.length) 0
            = i + 1) →
      ht.find (itos.getD i "") = some i := by
    intro i hi hfirst hwin
    obtain ⟨mstar, hmstar, hval, hpathm⟩ := hpath i hi
    have hexm : ∃ m, ht.table.getD
        (((stringHash (itos.getD i "") + 7 * m) % UINT32_SIZE) % ht.table.length) 0
        = i + 1 := by
      obtain ⟨m, -, hm⟩ := hwin
      exact ⟨m, hm⟩
    obtain ⟨mw, hmwlt, hmw⟩ := hwin
    have hle_star : Nat.find hexm ≤ mstar := Nat.find_min' hexm hval
    have hlt_cap : Nat.find hexm < ht.table.length :=
      lt_of_le_of_lt (Nat.find_min' hexm hmw) hmwlt
    unfold HashTable.find
    rw [hitos]
    refine findLoop_reach itos ht.table (stringHash (itos.getD i ""))
      (itos.getD i "") i rfl (Nat.find hexm) 0 ht.table.length hlt_cap ?_ ?_
    · intro d hd
      obtain ⟨jp, hjp, hjpv⟩ := hpathm d (lt_of_lt_of_le hd hle_star)
      rw [Nat.zero_add]
      exact ⟨jp, hjpv, hfirst jp hjp⟩
    · rw [Nat.zero_add]
      exact Nat.find_spec hexm
  have partb : ∀ key j, ht.find key = some j →
      j < itos.length ∧ itos.getD j "" = key := by
    intro key j hfind
    unfold HashTable.find at hfind
    obtain ⟨hkey, b, hbv⟩ :=
      findLoop_sound ht.itos ht.table (stringHash key) key ht.table.length 0 j hfind
    rw [hitos] at hkey
    rcases hent b with h0 | ⟨jp, hjp, hjpv⟩
    · rw [h0] at hbv; omega
    · rw [hjpv] at hbv
      have hje : j = jp := by omega
      subst hje
      exact ⟨hjp, hkey⟩
  refine ⟨parta, partb, ?_⟩
  intro key hwin hnone hmem
  have hex : ∃ n, n < itos.length ∧ itos.getD n "" = key := by
    obtain ⟨n, hn, hval⟩ := List.mem_iff_getElem.mp hmem
    refine ⟨n, hn, ?_⟩
    rw [List.getD_eq_getElem?_getD, List.getElem?_eq_getElem hn]
    simpa using hval
  have hspec := Nat.find_spec hex
  have hfirst : ∀ j, j < Nat.find hex →
      itos.getD j "" ≠ itos.getD (Nat.find hex) "" := by
    intro j hj hc
    exact Nat.find_min hex hj ⟨by omega, by rw [hc]; exact hspec.2⟩
  obtain ⟨mstar, hmstar, hval, hpathm⟩ := hpath (Nat.find hex) hspec.1
  rw [hspec.2] at hval hpathm
  have hexE : ∃ k, ht.table.getD
      (((stringHash key + 7 * k) % UINT32_SIZE) % ht.table.length) 0 = 0 := by
    obtain ⟨k, -, hk⟩ := hwin
    exact ⟨k, hk⟩
  obtain ⟨kw, hkwlt, hkw⟩ := hwin
  have hthat_lt : Nat.find hexE < ht.table.length :=
    lt_of_le_of_lt (Nat.find_min' hexE hkw) hkwlt
  have hmstar_lt : mstar < Nat.find hexE := by
    rcases Nat.lt_trichotomy mstar (Nat.find hexE) with hlt | heq | hgt
    · exact hlt
    · exfalso
      rw [heq, Nat.find_spec hexE] at hval
      omega
    · exfalso
      obtain ⟨jp, -, hjpv⟩ := hpathm (Nat.find hexE) hgt
      rw [Nat.find_spec hexE] at hjpv
      omega
  have hfound : ht.find key = some (Nat.find hex) := by
    unfold HashTable.find
    rw [hitos]
    refine findLoop_reach itos ht.table (stringHash key) key (Nat.find hex)
      hspec.2 mstar 0 ht.table.length (lt_trans hmstar_lt hthat_lt) ?_ ?_
    · intro d hd
      obtain ⟨jp, hjp, hjpv⟩ := hpathm d hd
      rw [Nat.zero_add]
      refine ⟨jp, hjpv, ?_⟩
      intro hc
      exact hfirst jp hjp (hc.trans hspec.2.symm)
    · rw [Nat.zero_add]
      exact hval
  rw [hfound] at hnone
  cases hnone

/-- C1 amended, witness: in the table built from `["cat", "dog"]` (where
every stored slot is within the probe window), `_find` returns ordinal 0
for `"cat"` and 1 for `"dog"`, and the absence answer for `"fish"` is
truthful. -/
theorem hashTable_find_correct_witness :
    ((HashTable.build ["cat", "dog"]).getD ⟨[], []⟩).find "cat" = some 0
      ∧ ((HashTable.build ["cat", "dog"]).getD ⟨[], []⟩).find "dog" = some 1
      ∧ ¬ "fish" ∈ (["cat", "dog"] : List String) :=
  ⟨(hashTable_find_correct ["cat", "dog"]
        ((HashTable.build ["cat", "dog"]).getD ⟨[], []⟩) (by decide)).1 0
      (by decide) (by intro j hj; omega) (by decide),
    (hashTable_find_correct ["cat", "dog"]
        ((HashTable.build ["cat", "dog"]).getD ⟨[], []⟩) (by decide)).1 1
      (by decide) (by
        intro j hj
        have hj0 : j = 0 := by omega
        subst hj0
        decide) (by decide),
    (hashTable_find_correct ["cat", "dog"]
        ((HashTable.build ["cat", "dog"]).getD ⟨[], []⟩)
        (by decide)).2.2 "fish" (by decide) (by decide)⟩

/-- C5: every successfully built table keeps the input key list, has
exactly `2 * N` bucket slots, stores each key ordinal `j` as `j + 1` in
exactly one slot with every other slot holding the empty sentinel 0, and
rebuilding from the same key list yields the identical table. -/
theorem hashTable_build_table_invariants (itos : List String) (ht : HashTable)
    (h : HashTable.build itos = some ht) :
    ht.itos = itos
    ∧ ht.table.length = 2 * itos.length
    ∧ (∀ j, j < itos.length → ∃ b < ht.table.length,
        ht.table.getD b 0 = j + 1 ∧ ∀ b', ht.table.getD b' 0 = j + 1 → b' = b)
    ∧ (∀ b, ht.table.getD b 0 = 0 ∨ ∃ j < itos.length, ht.table.getD b 0 = j + 1)
    ∧ ∀ ht', HashTable.build itos = some ht' → ht' = ht := by
  obtain ⟨hitos, hlen, hent, huniq, -⟩ := build_spec itos ht h
  exact ⟨hitos, hlen, huniq, hent,
    fun ht' h' => Option.some.inj (h'.symm.trans h)⟩

/-- C5 witness: the table built from `["cat", "dog"]` keeps its key list
and has `2 * 2` bucket slots. -/
theorem hashTable_build_table_invariants_witness :
    ((HashTable.build ["cat", "dog"]).getD ⟨[], []⟩).itos = ["cat", "dog"]
      ∧ ((HashTable.build ["cat", "dog"]).getD ⟨[], []⟩).table.length
          = 2 * (["cat", "dog"] : List String).length :=
  ⟨(hashTable_build_table_invariants ["cat", "dog"]
        ((HashTable.build ["cat", "dog"]).getD ⟨[], []⟩) (by decide)).1,
    (hashTable_build_table_invariants ["cat", "dog"]
        ((HashTable.build ["cat", "dog"]).getD ⟨[], []⟩) (by decide)).2.1⟩

lemma set_invariants (t : List Nat) (i b : Nat)
    (hblt : b < t.length) (hbempty : t.getD b 0 = 0)
    (hent : EntriesInv i t) (huniq : UniqInv i t) :
    EntriesInv (i + 1) (t.set b (1 + i)) ∧ UniqInv (i + 1) (t.set b (1 + i)) := by
  have hlen' : (t.set b (1 + i)).length = t.length := List.length_set t b _
  have hself : (t.set b (1 + i)).getD b 0 = 1 + i := getD_set_self t b (1 + i) hblt
  have hother : ∀ b', b' ≠ b → (t.set b (1 + i)).getD b' 0 = t.getD b' 0 :=
    fun b' hb' => getD_set_ne t b b' (1 + i) (Ne.symm hb')
  constructor
  · intro b'
    by_cases hc : b' = b
    · subst hc; right; exact ⟨i, by omega, hself.trans (by omega)⟩
    · rcases hent b' with h0 | ⟨j, hj, hjv⟩
      · left; rw [hother b' hc]; exact h0
      · right; exact ⟨j, by omega, by rw [hother b' hc]; exact hjv⟩
  · intro j hj
    by_cases hji : j = i
    · subst hji
      refine ⟨b, by rw [hlen']; exact hblt, hself.trans (by omega), ?_⟩
      intro b' hb'
      by_contra hne
      rw [hother b' hne] at hb'
      rcases hent b' with h0 | ⟨j', hj', hj'v⟩
      · rw [h0] at hb'; omega
      · rw [hj'v] at hb'; omega
    · have hji' : j < i := by omega
      obtain ⟨bj, hbjlt, hbjv, hbju⟩ := huniq j hji'
      have hbjne : bj ≠ b := by
        intro hc; rw [hc, hbempty] at hbjv; omega
      refine ⟨bj, by rw [hlen']; exact hbjlt,
        by rw [hother bj hbjne]; exact hbjv, ?_⟩
      intro b' hb'
      have hb'ne : b' ≠ b := by
        intro hc; subst hc
        rw [hself] at hb'; omega
      rw [hother b' hb'ne] at hb'
      exact hbju b' hb'

lemma exists_free (t : List Nat) (i : Nat) (hent : EntriesInv i t) (huniq : UniqInv i t)
    (hi : i < t.length) : ∃ b, b < t.length ∧ t.getD b 0 = 0 := by
  by_contra hno
  push_neg at hno
  have hmap : ∀ b ∈ Finset.range t.length,
      t.getD b 0 - 1 ∈ Finset.range i := by
    intro b hb
    rw [Finset.mem_range] at hb ⊢
    rcases hent b with h0 | ⟨j, hj, hjv⟩
    · exact absurd h0 (hno b hb)
    · rw [hjv]; omega
  have hinj : Set.InjOn (fun b => t.getD b 0 - 1) (Finset.range t.length) := by
    intro b1 hb1 b2 hb2 hfe
    simp only [Finset.coe_range, Set.mem_Iio] at hb1 hb2
    rcases hent b1 with h01 | ⟨j1, hj1, hv1⟩
    · exact absurd h01 (hno b1 hb1)
    · rcases hent b2 with h02 | ⟨j2, hj2, hv2⟩
      · exact absurd h02 (hno b2 hb2)
      · simp only [hv1, hv2, Nat.add_sub_cancel] at hfe
        subst hfe
        obtain ⟨bj, -, -, hbju⟩ := huniq j1 hj1
        rw [hbju b1 hv1, hbju b2 hv2]
  have hcard := Finset.card_le_card_of_injOn _ hmap hinj
  simp only [Finset.card_range] at hcard
  omega

lemma probe_surjective (cap hash b : Nat) (hcap : 0 < cap) (h7 : ¬ 7 ∣ cap)
    (hb : b < cap) : ∃ k < cap, (hash + 7 * k) % cap = b := by
  have hcop : Nat.gcd 7 cap = 1 := by
    have hd : Nat.gcd 7 cap ∣ 7 := Nat.gcd_dvd_left _ _
    rcases Nat.Prime.eq_one_or_self_of_dvd (by norm_num) _ hd with h1 | h7'
    · exact h1
    · exact absurd (h7' ▸ Nat.gcd_dvd_right 7 cap) h7
  have hinj : Function.Injective
      (fun k : Fin cap => (⟨(hash + 7 * k.val) % cap, Nat.mod_lt _ hcap⟩ : Fin cap)) := by
    intro k1 k2 he
    have hmod : (hash + 7 * k1.val) % cap = (hash + 7 * k2.val) % cap :=
      congrArg Fin.val he
    have h2 : 7 * k1.val ≡ 7 * k2.val [MOD cap] :=
      Nat.ModEq.add_left_cancel' hash hmod
    have hcop' : Nat.gcd cap 7 = 1 := by rwa [Nat.gcd_comm]
    have h1 : k1.val ≡ k2.val [MOD cap] :=
      Nat.ModEq.cancel_left_of_coprime hcop' h2
    have h3 : k1.val % cap = k2.val % cap := h1
    rw [Nat.mod_eq_of_lt k1.isLt, Nat.mod_eq_of_lt k2.isLt] at h3
    exact Fin.ext h3
  have hsurj := Finite.injective_iff_surjective.mp hinj
  obtain ⟨k, hk⟩ := hsurj ⟨b, hb⟩
  exact ⟨k.val, k.isLt, congrArg Fin.val hk⟩

lemma buildAux_total :
    ∀ (rest : List String) (i : Nat) (t : List Nat),
      0 < t.length → t.length ≤ UINT32_SIZE →
      EntriesInv i t → UniqInv i t →
      i + rest.length ≤ t.length →
      ∃ T, buildAux rest i t = some T := by
  intro rest
  induction rest with
  | nil => intro i t _ _ _ _ _; exact ⟨t, rfl⟩
  | cons w ws ih =>
    intro i t hcap hsize hent huniq hbound
    have hilt : i < t.length := by
      simp only [List.length_cons] at hbound; omega
    obtain ⟨bf, hbf, hbfv⟩ := exists_free t i hent huniq hilt
    obtain ⟨k, hk, hkeq⟩ := probe_surjective UINT32_SIZE (stringHash w) bf
      uint32_size_pos (by decide) (lt_of_lt_of_le hbf hsize)
    obtain ⟨b, hfb⟩ := findFreeBucket_complete UINT32_SIZE t (stringHash w)
      (stringHash_lt w)
      ⟨k, hk, by rw [hkeq, Nat.mod_eq_of_lt hbf]; exact hbfv⟩
    obtain ⟨k0, hk0, hbeq, hbempty, -⟩ :=
      findFreeBucket_some_spec _ _ _ _ (stringHash_lt w) hfb
    have hblt : b < t.length := hbeq ▸ Nat.mod_lt _ hcap
    obtain ⟨hent', huniq'⟩ := set_invariants t i b hblt hbempty hent huniq
    obtain ⟨T, hT⟩ := ih (i + 1) (t.set b (1 + i))
      (by rw [List.length_set]; exact hcap)
      (by rw [List.length_set]; exact hsize) hent' huniq'
      (by rw [List.length_set]; simp only [List.length_cons] at hbound; omega)
    refine ⟨T, ?_⟩
    unfold buildAux
    rw [hfb]
    exact hT

/-- One-step unfolding of the insertion loop of `HashTable._build`. -/
lemma buildAux_cons (w : String) (rest : List String) (i : Nat) (t : List Nat) :
    buildAux (w :: rest) i t
      = match findFreeBucket t (stringHash w) UINT32_SIZE with
        | none => none
        | some bucket => buildAux rest (i + 1) (t.set bucket (1 + i)) := rfl

/-- Inserting `"o"` into the capacity-14 table that already holds `"a"`
(bucket 13) and `"h"` (bucket 6): every probe attempt before the 32-bit
wraparound alternates between the occupied buckets 13 and 6, and the first
empty bucket — bucket 2 — is reached only at probe attempt 613550758, when
the `np.uint32` accumulator wraps. -/
lemma findFreeBucket_o :
    findFreeBucket [0, 0, 0, 0, 0, 0, 2, 0, 0, 0, 0, 0, 0, 1]
        (stringHash "o") UINT32_SIZE = some 2 := by
  have hsh : stringHash "o" = 111999 := by decide
  have hS : UINT32_SIZE = 4294967296 := by norm_num [UINT32_SIZE]
  have hlen : ([0, 0, 0, 0, 0, 0, 2, 0, 0, 0, 0, 0, 0, 1] : List Nat).length = 14 := rfl
  have hreach := findFreeBucket_reach 613550757
    [0, 0, 0, 0, 0, 0, 2, 0, 0, 0, 0, 0, 0, 1] 111999 UINT32_SIZE
    (by rw [hS]; omega) (by rw [hS]; omega) ?_ ?_
  · rw [hsh, hreach]
    rw [hS, hlen]
  · intro d hd
    rw [hS, hlen]
    have hlt : 111999 + 7 * d < 4294967296 := by omega
    rw [Nat.mod_eq_of_lt hlt]
    have hmod : (111999 + 7 * d) % 14 = 6 ∨ (111999 + 7 * d) % 14 = 13 := by omega
    rcases hmod with hm | hm <;> rw [hm] <;> decide
  · rw [hS, hlen]
    decide

/-- The full build of the seven-key list: `"a"` lands in bucket 13, `"h"`
in bucket 6, `"o"` in bucket 2 (after the wraparound, via
`findFreeBucket_o`), then `"b"`, `"c"`, `"d"`, `"e"` in buckets 0, 1, 9, 3
respectively. -/
lemma build_seven_keys :
    HashTable.build ["a", "h", "o", "b", "c", "d", "e"]
      = some ⟨["a", "h", "o", "b", "c", "d", "e"],
          [4, 5, 3, 7, 0, 0, 2, 0, 0, 6, 0, 0, 0, 1]⟩ := by
  have hbuild : buildAux ["a", "h", "o", "b", "c", "d", "e"] 0 (List.replicate 14 0)
      = some [4, 5, 3, 7, 0, 0, 2, 0, 0, 6, 0, 0, 0, 1] := by
    rw [buildAux_cons,
      show findFreeBucket (List.replicate 14 0) (stringHash "a") UINT32_SIZE
        = some 13 from by decide]
    show buildAux ["h", "o", "b", "c", "d", "e"] 1
        [0, 0, 0, 0, 0, 0, 0, 0, 0, 0, 0, 0, 0, 1]
      = some [4, 5, 3, 7, 0, 0, 2, 0, 0, 6, 0, 0, 0, 1]
    rw [buildAux_cons,
      show findFreeBucket [0, 0, 0, 0, 0, 0, 0, 0, 0, 0, 0, 0, 0, 1]
          (stringHash "h") UINT32_SIZE = some 6 from by decide]
    show buildAux ["o", "b", "c", "d", "e"] 2
        [0, 0, 0, 0, 0, 0, 2, 0, 0, 0, 0, 0, 0, 1]
      = some [4, 5, 3, 7, 0, 0, 2, 0, 0, 6, 0, 0, 0, 1]
    rw [buildAux_cons, findFreeBucket_o]
    show buildAux ["b", "c", "d", "e"] 3
        [0, 0, 3, 0, 0, 0, 2, 0, 0, 0, 0, 0, 0, 1]
      = some [4, 5, 3, 7, 0, 0, 2, 0, 0, 6, 0, 0, 0, 1]
    decide
  have h1 : HashTable.build ["a", "h", "o", "b", "c", "d", "e"]
      = (buildAux ["a", "h", "o", "b", "c", "d", "e"] 0
          (List.replicate (2 * (["a", "h", "o", "b", "c", "d", "e"] : List String).length)
            0)).map
          (fun t => { itos := ["a", "h", "o", "b", "c", "d", "e"], table := t }) := by
    unfold HashTable.build
    rfl
  rw [h1,
    show 2 * (["a", "h", "o", "b", "c", "d", "e"] : List String).length = 14 from rfl,
    hbuild]
  rfl

/-- C1 counterexample: building from the seven-key list
`["a", "h", "o", "b", "c", "d", "e"]` (capacity 14) places `"o"` at bucket
2, reached only after the 32-bit wraparound at probe attempt 613550758;
`_find`, which probes only `capacity = 14` attempts, scans the occupied
buckets 13 and 6 over and over and reports not-found for the present key
`"o"` — a false negative, contradicting the claim. -/
theorem hashTable_find_misses_present_key :
    HashTable.build ["a", "h", "o", "b", "c", "d", "e"]
        = some ⟨["a", "h", "o", "b", "c", "d", "e"],
            [4, 5, 3, 7, 0, 0, 2, 0, 0, 6, 0, 0, 0, 1]⟩
      ∧ HashTable.find
          ⟨["a", "h", "o", "b", "c", "d", "e"],
            [4, 5, 3, 7, 0, 0, 2, 0, 0, 6, 0, 0, 0, 1]⟩ "o" = none
      ∧ "o" ∈ (["a", "h", "o", "b", "c", "d", "e"] : List String) :=
  ⟨build_seven_keys, by decide, by decide⟩

/-- C2 counterexample: in the same seven-key build, the insertion probe
loop for `"o"` finds no empty bucket within `capacity = 14` attempts — nor
within 613550757 attempts — and first succeeds at attempt 613550758; so
probing is not bounded by `capacity`. -/
theorem hashTable_insert_exceeds_capacity :
    findFreeBucket [0, 0, 0, 0, 0, 0, 2, 0, 0, 0, 0, 0, 0, 1]
        (stringHash "o") 14 = none
      ∧ findFreeBucket [0, 0, 0, 0, 0, 0, 2, 0, 0, 0, 0, 0, 0, 1]
          (stringHash "o") 613550757 = none
      ∧ findFreeBucket [0, 0, 0, 0, 0, 0, 2, 0, 0, 0, 0, 0, 0, 1]
          (stringHash "o") 613550758 = some 2 := by
  have hsh : stringHash "o" = 111999 := by decide
  have hlen : ([0, 0, 0, 0, 0, 0, 2, 0, 0, 0, 0, 0, 0, 1] : List Nat).length = 14 := rfl
  have hocc : ∀ d, d < 613550757 →
      ([0, 0, 0, 0, 0, 0, 2, 0, 0, 0, 0, 0, 0, 1] : List Nat).getD
        (((111999 + 7 * d) % UINT32_SIZE)
          % ([0, 0, 0, 0, 0, 0, 2, 0, 0, 0, 0, 0, 0, 1] : List Nat).length) 0 ≠ 0 := by
    intro d hd
    have hS : UINT32_SIZE = 4294967296 := by norm_num [UINT32_SIZE]
    rw [hS, hlen]
    have hlt : 111999 + 7 * d < 4294967296 := by omega
    rw [Nat.mod_eq_of_lt hlt]
    have hmod : (111999 + 7 * d) % 14 = 6 ∨ (111999 + 7 * d) % 14 = 13 := by omega
    rcases hmod with hm | hm <;> rw [hm] <;> decide
  refine ⟨by decide, ?_, ?_⟩
  · rw [hsh]
    refine findFreeBucket_occupied_none 613550757 _ 111999
      (by norm_num [UINT32_SIZE]) ?_
    intro k hk
    exact hocc k hk
  · rw [hsh]
    have hreach := findFreeBucket_reach 613550757
      [0, 0, 0, 0, 0, 0, 2, 0, 0, 0, 0, 0, 0, 1] 111999 613550758
      (by norm_num [UINT32_SIZE]) (by omega) (fun d hd => hocc d hd) ?_
    · rw [hreach]
      have hS : UINT32_SIZE = 4294967296 := by norm_num [UINT32_SIZE]
      rw [hS, hlen]
    · have hS : UINT32_SIZE = 4294967296 := by norm_num [UINT32_SIZE]
      rw [hS, hlen]
      decide

/-- C2 amended: `Find` performs at most `capacity` probe attempts (its loop
is bounded by `range(table_size)`), and the insertion probe loop in build
terminates for every key of every key list of at most `2^31` keys — the
wrapped probe sequence eventually visits every bucket and the table is
never more than 50% full — but not necessarily within `capacity` attempts:
the counterexample insertion first succeeds at attempt 613550758 in a
capacity-14 table. -/
theorem hashTable_probe_termination (itos : List String)
    (hne : itos ≠ []) (hsize : itos.length ≤ 2 ^ 31) :
    (∃ ht, HashTable.build itos = some ht)
      ∧ ∀ (ht : HashTable) (key : String),
          ht.find key
            = findLoop ht.itos ht.table (stringHash key) key 0 ht.table.length := by
  refine ⟨?_, fun ht key => rfl⟩
  cases itos with
  | nil => exact absurd rfl hne
  | cons x xs =>
    have hlenr : (List.replicate (2 * (x :: xs).length) (0 : Nat)).length
        = 2 * (x :: xs).length := List.length_replicate _ _
    have hent0 : EntriesInv 0 (List.replicate (2 * (x :: xs).length) 0) := by
      intro b; left; exact getD_replicate_zero _ _
    have huniq0 : UniqInv 0 (List.replicate (2 * (x :: xs).length) 0) := by
      intro j hj; omega
    obtain ⟨T, hT⟩ := buildAux_total (x :: xs) 0 _
      (by rw [hlenr]; simp [List.length_cons])
      (by
        rw [hlenr]
        have hS : UINT32_SIZE = 2 ^ 32 := rfl
        rw [hS]
        have h31 : (2 : Nat) ^ 32 = 2 * 2 ^ 31 := by norm_num
        rw [h31]
        omega) hent0 huniq0
      (by rw [hlenr]; omega)
    refine ⟨⟨x :: xs, T⟩, ?_⟩
    unfold HashTable.build
    simp only [maxStrLen]
    rw [hT]
    rfl

/-- C2 amended, witness: the two-key list `["cat", "dog"]` satisfies the
size bound, its build succeeds, and the probe budget of `_find` on it is
its capacity. -/
theorem hashTable_probe_termination_witness :
    (∃ ht, HashTable.build ["cat", "dog"] = some ht)
      ∧ ((HashTable.build ["cat", "dog"]).getD ⟨[], []⟩).find "fish"
          = findLoop ((HashTable.build ["cat", "dog"]).getD ⟨[], []⟩).itos
              ((HashTable.build ["cat", "dog"]).getD ⟨[], []⟩).table
              (stringHash "fish") "fish" 0
              ((HashTable.build ["cat", "dog"]).getD ⟨[], []⟩).table.length :=
  ⟨(hashTable_probe_termination ["cat", "dog"] (by decide) (by norm_num)).1,
    (hashTable_probe_termination ["cat", "dog"] (by decide) (by norm_num)).2
      ((HashTable.build ["cat", "dog"]).getD ⟨[], []⟩) "fish"⟩

/-- The synthetic sub-keys generated by `CharNGram.__getitem__` (vocab.py
lines 481-487): the character sequence is bracketed by the `#BEGIN#` and
`#END#` markers; for each n in [2, 3, 4], all windows of n consecutive
entries are joined and prefixed with `"{n}gram-"` (written with
concatenation here).  `range(end)` with `end = len(chars) - n + 1` is empty
when `end` is not positive, which the truncated subtraction reproduces. -/
def gramKeys (token : String) : List String :=
  let chars : List String :=
    ["#BEGIN#"] ++ token.data.map (fun ch => String.mk [ch]) ++ ["#END#"]
  ([2, 3, 4] : List Nat).flatMap (fun n =>
    (List.range (chars.length + 1 - n)).map (fun i =>
      Nat.repr n ++ "gram-" ++ String.join ((chars.drop i).take n)))

/-- Elementwise tensor addition `vector += ...`. -/
def vecAdd (a b : List ℚ) : List ℚ := List.zipWith (· + ·) a b

/-- `CharNGram.__getitem__` (vocab.py lines 475-495): the token `"<unk>"`
goes straight to the fallback; otherwise the vectors of the sub-keys found
in the index are accumulated together with their count; a positive count
yields the elementwise average (`vector /= num_vectors`), a zero count
yields the fallback applied to the still-zero accumulator.  The token
itself is never looked up in the index. -/
def charNGramGetItem (c : VectorsTable) (token : String) : List ℚ :=
  let vector := List.replicate c.dim (0 : ℚ)
  if token = "<unk>" then c.unk_init vector
  else
    let acc := (gramKeys token).foldl
      (fun (a : List ℚ × Nat) (gramKey : String) =>
        if c.stoi.contains gramKey then
          (vecAdd a.1 (c.vectors.getD ((c.stoi.find gramKey).getD 0) []), a.2 + 1)
        else a)
      (vector, 0)
    if 0 < acc.2 then acc.1.map (fun q => q / (acc.2 : ℚ))
    else c.unk_init acc.1

/-- The vectors of the sub-keys of `token` that are present in the index,
in generation order. -/
def foundGramVecs (c : VectorsTable) (token : String) : List (List ℚ) :=
  (gramKeys token).filterMap
    (fun k => (c.stoi.find k).map (fun i => c.vectors.getD i []))

/-- A one-key character-n-gram table whose key table directly contains the
plain token `"ab"` (not a sub-key). -/
def exampleCharNGram : VectorsTable :=
  { stoi := (HashTable.build ["ab"]).getD ⟨[], []⟩,
    vectors := [[5, 7]], dim := 2, unk_init := tensorZero }

/-- A one-key character-n-gram table containing the sub-key `"2gram-ab"`. -/
def exampleCharNGram2 : VectorsTable :=
  { stoi := (HashTable.build ["2gram-ab"]).getD ⟨[], []⟩,
    vectors := [[6, 8]], dim := 2, unk_init := tensorZero }

/-- C7 counterexample: the token `"ab"` is found directly in the key table
of `exampleCharNGram` (ordinal 0, vector `[5, 7]`), yet lookup does not
return that vector: `CharNGram.__getitem__` never consults the key table
for the token itself, finds none of the synthetic sub-keys, and falls back
to the zero vector. -/
theorem charNGram_direct_hit_ignored :
    exampleCharNGram.stoi.find "ab" = some 0
      ∧ exampleCharNGram.vectors.getD 0 [] = [5, 7]
      ∧ charNGramGetItem exampleCharNGram "ab" = [0, 0]
      ∧ charNGramGetItem exampleCharNGram "ab" ≠ exampleCharNGram.vectors.getD 0 [] := by
  refine ⟨by decide, by decide, by decide, by decide⟩

lemma charNGram_fold (c : VectorsTable) :
    ∀ (keys : List String) (v0 : List ℚ) (n0 : Nat),
      keys.foldl
        (fun (a : List ℚ × Nat) (gramKey : String) =>
          if c.stoi.contains gramKey then
            (vecAdd a.1 (c.vectors.getD ((c.stoi.find gramKey).getD 0) []), a.2 + 1)
          else a)
        (v0, n0)
      = ((keys.filterMap
            (fun k => (c.stoi.find k).map (fun i => c.vectors.getD i []))).foldl
              vecAdd v0,
          n0 + (keys.filterMap
            (fun k => (c.stoi.find k).map (fun i => c.vectors.getD i []))).length) := by
  intro keys
  induction keys with
  | nil => intro v0 n0; simp
  | cons k ks ih =>
    intro v0 n0
    simp only [List.foldl_cons, List.filterMap_cons]
    cases hf : c.stoi.find k with
    | none =>
      have hc : c.stoi.contains k = false := by
        simp [HashTable.contains, hf]
      rw [hc]
      simp only [Bool.false_eq_true, if_false, Option.map_none']
      exact ih v0 n0
    | some i =>
      have hc : c.stoi.contains k = true := by
        simp [HashTable.contains, hf]
      rw [hc]
      simp only [if_true, Option.map_some', hf, Option.getD_some]
      rw [ih (vecAdd v0 (c.vectors.getD i [])) (n0 + 1)]
      simp only [List.foldl_cons, List.length_cons, Prod.mk.injEq]
      exact ⟨trivial, by omega⟩

/-- C7 amended: for every token other than the literal `"<unk>"`, lookup
never consults the key table for the token itself; it averages the vectors
of the found synthetic sub-keys (n-grams of sizes 2, 3, 4 over the
begin/end-bracketed character sequence), and when no sub-key is found it
returns the unknown-vector fallback applied to the zero vector. -/
theorem charNGram_composite_lookup (c : VectorsTable) (token : String)
    (hunk : token ≠ "<unk>") :
    (foundGramVecs c token ≠ [] →
        charNGramGetItem c token
          = ((foundGramVecs c token).foldl vecAdd (List.replicate c.dim 0)).map
              (fun q => q / ((foundGramVecs c token).length : ℚ)))
      ∧ (foundGramVecs c token = [] →
        charNGramGetItem c token = c.unk_init (List.replicate c.dim 0)) := by
  have hbody : charNGramGetItem c token
      = (if 0 < (foundGramVecs c token).length then
          ((foundGramVecs c token).foldl vecAdd (List.replicate c.dim 0)).map
            (fun q => q / (((foundGramVecs c token).length : Nat) : ℚ))
        else c.unk_init
          ((foundGramVecs c token).foldl vecAdd (List.replicate c.dim 0))) := by
    unfold charNGramGetItem
    rw [if_neg hunk]
    rw [charNGram_fold c (gramKeys token) (List.replicate c.dim 0) 0]
    simp only [Nat.zero_add]
    rfl
  constructor
  · intro hne
    have hpos : 0 < (foundGramVecs c token).length := by
      cases hfv : foundGramVecs c token with
      | nil => exact absurd hfv hne
      | cons a as => simp
    rw [hbody, if_pos hpos]
  · intro hnil
    rw [hbody, hnil]
    simp

/-- C7 amended, witness: with the sub-key `"2gram-ab"` present, lookup of
`"ab"` returns the average of the found sub-key vectors; with only the
plain token `"ab"` present, no sub-key is found and lookup of `"ab"` falls
back. -/
theorem charNGram_composite_lookup_witness :
    charNGramGetItem exampleCharNGram2 "ab"
      = ((foundGramVecs exampleCharNGram2 "ab").foldl vecAdd
          (List.replicate exampleCharNGram2.dim 0)).map
          (fun q => q / ((foundGramVecs exampleCharNGram2 "ab").length : ℚ))
      ∧ charNGramGetItem exampleCharNGram "ab"
          = exampleCharNGram.unk_init (List.replicate exampleCharNGram.dim 0) :=
  ⟨(charNGram_composite_lookup exampleCharNGram2 "ab" (by decide)).1 (by decide),
    (charNGram_composite_lookup exampleCharNGram "ab" (by decide)).2 (by decide)⟩

end Vocab
